import Mathlib

/-!
Shallow embedding of `rasa_nlu/training_data/training_data.py` (class
`TrainingData`) and the collaborators it uses, together with proofs about the
merge, sorting and validation behaviour of that class.

Python values are modelled as follows: `str` becomes `String`, a Python dict
becomes an insertion-ordered association list (`Dict V` below, mirroring
CPython's ordered dicts), a Python set of strings becomes `Finset String`,
`None`-able strings become `Option String`, and `deepcopy` is the identity on
values (object identity is modelled separately, with explicit tags, where a
claim is about aliasing).
-/

namespace RasaNLU

/-! ### Python string stripping (`str.strip()`) -/

/-- Python's `str.strip()`: drop whitespace characters from both ends. -/
def pyStrip (s : String) : String :=
  ⟨((s.data.dropWhile Char.isWhitespace).reverse.dropWhile Char.isWhitespace).reverse⟩

/-! ### Python dicts as insertion-ordered association lists -/

/-- A Python dict with `String` keys: an association list in key-insertion
order, as CPython dicts preserve insertion order. -/
abbrev Dict (V : Type) := List (String × V)

/-- `d[k]` / `k in d`: lookup of the first (unique, in a real dict) binding. -/
def dictGet? {V : Type} (d : Dict V) (k : String) : Option V :=
  (d.find? (fun p => p.1 = k)).map (·.2)

/-- `d[k] = v`: replace the value at an existing key in place, otherwise
append the new binding at the end (insertion-order semantics). -/
def dictSet {V : Type} : Dict V → String → V → Dict V
  | [], k, v => [(k, v)]
  | (k', v') :: t, k, v =>
      if k = k' then (k, v) :: t else (k', v') :: dictSet t k v

/-- `d.update(other)`: set every binding of `other`, in `other`'s order. -/
def dictUpdate {V : Type} (d other : Dict V) : Dict V :=
  other.foldl (fun acc p => dictSet acc p.1 p.2) d

/-- The keys of a dict, in order. -/
def dictKeys {V : Type} (d : Dict V) : List String := d.map (·.1)

/-! ### The data model -/

/-- One entity annotation inside a training example: a mapping carrying at
least the `entity` key (the entity type name); other fields are opaque and
collapsed into `value`. -/
structure EntitySpan where
  entity : String
  value : String
deriving DecidableEq, Repr

/-- Modelled from the spec: `Message` (the `Example` collaborator) lives in
`rasa_nlu/training_data/__init__.py`, which is not among the sources. Per the
spec it is "one annotated utterance with attributes (intent, entities, text);
treated as an opaque record exposing get/set-by-key access", where an absent
intent reads as `None` and an absent entity list reads as falsy (like the
empty list). -/
structure Message where
  text : String
  intent : Option String
  entities : List EntitySpan
deriving DecidableEq, Repr

/-- `ex.get("intent")` is truthy: the intent is present and not `""`. -/
def Message.intentTruthy (m : Message) : Bool :=
  match m.intent with
  | none => false
  | some s => s ≠ ""

/-- A regex feature: a mapping with the two keys `name` and `pattern`. -/
structure RegexFeature where
  name : String
  pattern : String
deriving DecidableEq, Repr

/-- The sort key `"{}+{}".format(e['name'], e['pattern'])` used by
`sort_regex_features`: string concatenation, not tuple comparison. -/
def featKey (e : RegexFeature) : String := e.name ++ "+" ++ e.pattern

/-! ### String comparison and stable sort (Python's `sorted(key=...)`)

Python compares strings lexicographically by code point; `strLtb` is that
comparison on the character lists underlying `String`. -/

/-- Lexicographic strict comparison of character lists by code point. -/
def strLtb : List Char → List Char → Bool
  | [], [] => false
  | [], _ :: _ => true
  | _ :: _, [] => false
  | a :: s, b :: t =>
      if a.toNat < b.toNat then true
      else if b.toNat < a.toNat then false
      else strLtb s t

/-- Python's `s < t` on strings. -/
def pyLt (s t : String) : Bool := strLtb s.data t.data

/-- Python's `s <= t` on strings (total order: not `t < s`). -/
def pyLe (s t : String) : Bool := !(pyLt t s)

/-- Insert `a` after every element whose key is `≤ key a` (before the first
strictly greater one); with elements supplied in original order this realises
Python's stable `sorted`. -/
def insertByKey {α : Type} (key : α → String) (a : α) : List α → List α
  | [] => [a]
  | b :: l =>
      if pyLt (key a) (key b) then a :: b :: l else b :: insertByKey key a l

/-- Python's stable `sorted(l, key=...)` with a string-valued key. -/
def sortByKey {α : Type} (key : α → String) (l : List α) : List α :=
  l.foldl (fun acc a => insertByKey key a acc) []

/-! ### The warning channel (`warnings.warn` calls, as structured records) -/

/-- One emitted warning, as a structured record. -/
inductive Warning where
  /-- "Found empty intent, please check your training data." -/
  | emptyIntent : Warning
  /-- "Intent '{}' has only {} training examples! Minimum is {}." -/
  | intentBelowMin (intent : Option String) (count : Nat) : Warning
  /-- "Entity '{}' has only {} training examples! minimum is {}." -/
  | entityBelowMin (entity : String) (count : Nat) : Warning
  /-- The duplicate-synonym warning from `check_duplicate_synonym`. -/
  | duplicateSynonym (text oldValue newValue context : String) : Warning
deriving DecidableEq, Repr

/-- Modelled from the spec: `check_duplicate_synonym` lives in
`rasa_nlu/training_data/util.py`, which is not among the sources. Per the
spec: "if the key already exists in the accumulator with a **different**
value, emit a duplicate-synonym warning identifying the conflict and the
merge context"; if absent or identical, no warning. It only warns, it never
modifies the dict. -/
def check_duplicate_synonym (d : Dict String) (text syn context : String) :
    List Warning :=
  match dictGet? d text with
  | some v => if v ≠ syn then [.duplicateSynonym text v syn context] else []
  | none => []

/-! ### Counting (`dict(Counter(...))`) -/

/-- Add one occurrence of `a` to a counter association list: bump the first
matching entry, or append `(a, 1)` at the end. -/
def bumpCount {α : Type} [DecidableEq α] : List (α × Nat) → α → List (α × Nat)
  | [], a => [(a, 1)]
  | (b, n) :: t, a =>
      if a = b then (b, n + 1) :: t else (b, n) :: bumpCount t a

/-- `dict(Counter(l))`: keys in first-occurrence order, mapped to their
multiplicities. -/
def counter {α : Type} [DecidableEq α] (l : List α) : List (α × Nat) :=
  l.foldl bumpCount []

/-- The number of occurrences of `a` in `l` (a `Counter` multiplicity). -/
def countOcc {α : Type} [DecidableEq α] (l : List α) (a : α) : Nat :=
  l.countP (fun x => x = a)

/-! ### The `TrainingData` aggregate -/

/-- The state of a `TrainingData` object: its four stored containers.
Entity-phrase values are Python sets of strings, modelled as `Finset`. -/
@[ext]
structure TrainingData where
  training_examples : List Message
  entity_synonyms : Dict String
  regex_features : List RegexFeature
  entity_phrases : Dict (Finset String)
deriving DecidableEq

/-- `MIN_EXAMPLES_PER_INTENT`. -/
def MIN_EXAMPLES_PER_INTENT : Nat := 2

/-- `MIN_EXAMPLES_PER_ENTITY`. -/
def MIN_EXAMPLES_PER_ENTITY : Nat := 2

/-- `sanitize_examples` on one example: `if ex.get("intent"): ex.set("intent",
ex.get("intent").strip())` — only a present, non-empty intent is stripped. -/
def sanitizeMsg (m : Message) : Message :=
  if m.intentTruthy then { m with intent := (m.intent.map pyStrip) } else m

/-- `sanitize_examples`: strip whitespace from every (truthy) intent. -/
def sanitize_examples (l : List Message) : List Message := l.map sanitizeMsg

/-- `sort_regex_features`: `sorted(self.regex_features, key=lambda e:
"{}+{}".format(e['name'], e['pattern']))` — stable sort by the composite
string key. -/
def sort_regex_features (l : List RegexFeature) : List RegexFeature :=
  sortByKey featKey l

/-- `TrainingData.__init__`: store the four containers after normalising
examples and sorting regex features. (`x or []` defaulting is the identity on
the values supplied here; `validate` and `print_stats` are observational side
effects, modelled as separate functions on the resulting state.) -/
def TrainingData.init (training_examples : List Message)
    (entity_synonyms : Dict String) (regex_features : List RegexFeature)
    (entity_phrases : Dict (Finset String)) : TrainingData :=
  { training_examples := sanitize_examples training_examples
    entity_synonyms := entity_synonyms
    regex_features := sort_regex_features regex_features
    entity_phrases := entity_phrases }

/-! ### Derived views -/

/-- `intent_examples`: the examples with a truthy intent. -/
def TrainingData.intent_examples (td : TrainingData) : List Message :=
  td.training_examples.filter (·.intentTruthy)

/-- `entity_examples`: the examples with a truthy (non-empty) entity list. -/
def TrainingData.entity_examples (td : TrainingData) : List Message :=
  td.training_examples.filter (fun ex => !ex.entities.isEmpty)

/-- `intents`: `set([ex.get("intent") for ex in self.training_examples]) -
{None}`. -/
def TrainingData.intents (td : TrainingData) : Finset (Option String) :=
  (td.training_examples.map Message.intent).toFinset \ {none}

/-- `examples_per_intent`: `dict(Counter([ex.get("intent") for ex in
self.training_examples]))`. -/
def TrainingData.examples_per_intent (td : TrainingData) :
    List (Option String × Nat) :=
  counter (td.training_examples.map Message.intent)

/-- `sorted_entities`: all entity spans of all entity examples, sorted
(stably) by entity type name. -/
def TrainingData.sorted_entities (td : TrainingData) : List EntitySpan :=
  sortByKey EntitySpan.entity
    ((td.entity_examples.map Message.entities).flatten)

/-- `entities`: the set of entity type names over `sorted_entities`. -/
def TrainingData.entities (td : TrainingData) : Finset String :=
  (td.sorted_entities.map EntitySpan.entity).toFinset

/-- `examples_per_entity`:
`dict(Counter([e.get("entity") for e in self.sorted_entities()]))`. -/
def TrainingData.examples_per_entity (td : TrainingData) :
    List (String × Nat) :=
  counter (td.sorted_entities.map EntitySpan.entity)

/-- `sorted_intent_examples`: intent examples sorted stably by intent. The
source compares the raw `ex.get("intent")` values; on `intent_examples` every
intent is a present string, read out with `""` never occurring. -/
def TrainingData.sorted_intent_examples (td : TrainingData) : List Message :=
  sortByKey (fun ex => ex.intent.getD "") td.intent_examples

/-! ### Validation -/

/-- `validate`: the warnings emitted, in emission order — the empty-intent
check, then the per-intent minimum checks in dict order, then the per-entity
minimum checks in dict order. It is a total function of the state: it never
raises and never mutates. -/
def TrainingData.validate (td : TrainingData) : List Warning :=
  (if some "" ∈ td.intents then [Warning.emptyIntent] else []) ++
  (td.examples_per_intent.filterMap (fun p =>
    if p.2 < MIN_EXAMPLES_PER_INTENT then
      some (Warning.intentBelowMin p.1 p.2)
    else none)) ++
  (td.examples_per_entity.filterMap (fun p =>
    if p.2 < MIN_EXAMPLES_PER_ENTITY then
      some (Warning.entityBelowMin p.1 p.2)
    else none))

/-! ### Merge -/

/-- `_merge_entity_synonyms`: run `check_duplicate_synonym` for every binding
of `o`'s map against the accumulator (before any update), then
`entity_synonyms.update(o.entity_synonyms)`. Returns the warnings and the
updated map. -/
def merge_entity_synonyms (entity_synonyms : Dict String)
    (o : Dict String) : List Warning × Dict String :=
  ((o.map (fun p =>
      check_duplicate_synonym entity_synonyms p.1 p.2 "merging training data")).flatten,
   dictUpdate entity_synonyms o)

/-- `_merge_entity_phrases`: for each entity type of `o`, union into an
existing phrase set or adopt the set for a new key. -/
def merge_entity_phrases (entity_phrases : Dict (Finset String))
    (o : Dict (Finset String)) : Dict (Finset String) :=
  o.foldl (fun acc p =>
    match dictGet? acc p.1 with
    | some s => dictSet acc p.1 (s ∪ p.2)
    | none => dictSet acc p.1 p.2) entity_phrases

/-- One iteration of `merge`'s loop body over the accumulated four
containers: extend examples and regex features, merge synonyms and phrases. -/
def mergeStep (acc : List Message × Dict String × List RegexFeature ×
    Dict (Finset String)) (o : TrainingData) :
    List Message × Dict String × List RegexFeature × Dict (Finset String) :=
  (acc.1 ++ o.training_examples,
   (merge_entity_synonyms acc.2.1 o.entity_synonyms).2,
   acc.2.2.1 ++ o.regex_features,
   merge_entity_phrases acc.2.2.2 o.entity_phrases)

/-- `merge(self, *others)`: accumulate over the operands in order, then build
a new `TrainingData` from the four accumulated containers (`deepcopy` and
`dict.copy` are the identity on values). -/
def TrainingData.merge (self : TrainingData) (others : List TrainingData) :
    TrainingData :=
  let acc := others.foldl mergeStep
    (self.training_examples, self.entity_synonyms, self.regex_features,
     self.entity_phrases)
  TrainingData.init acc.1 acc.2.1 acc.2.2.1 acc.2.2.2

/-! ### Object-identity model of `merge`

For the aliasing guarantees of `merge`, values are not enough: `deepcopy`
allocates fresh objects while plain assignment shares them. Mutable Python
objects are therefore tagged with an identity (`id(obj)`), and every
allocation draws a fresh tag from a counter. Strings are immutable in Python
and carry no tag. This model mirrors `merge` line by line: `deepcopy` copies
values to fresh tags, `dict.copy()` allocates a fresh dict holding the same
(immutable) values, `set.union` allocates a fresh set, and the `else` branch
of `_merge_entity_phrases` stores the operand's set object unchanged. -/

/-- A mutable Python object: a value together with its identity tag. -/
structure Tagged (α : Type) where
  ref : Nat
  val : α
deriving DecidableEq, Repr

/-- The identity tags of a list of objects. -/
def refsOf {α : Type} (l : List (Tagged α)) : List Nat := l.map (·.ref)

/-- `deepcopy` of a list of objects: equal values at fresh consecutive tags;
also returns the next unused tag. -/
def deepcopyTagged {α : Type} : List (Tagged α) → Nat → List (Tagged α) × Nat
  | [], n => ([], n)
  | t :: l, n =>
      let r := deepcopyTagged l (n + 1)
      (⟨n, t.val⟩ :: r.1, r.2)

/-- `deepcopy` of an entity-phrase dict: each set value is copied to a fresh
tag (the dict object itself is also fresh, which the claims do not track). -/
def deepcopyPhrasesTagged :
    Dict (Tagged (Finset String)) → Nat → Dict (Tagged (Finset String)) × Nat
  | [], n => ([], n)
  | (k, s) :: l, n =>
      let r := deepcopyPhrasesTagged l (n + 1)
      ((k, ⟨n, s.val⟩) :: r.1, r.2)

/-- `_merge_entity_phrases` with object identities: a union allocates a fresh
set; an absent key stores the operand's set object itself. -/
def merge_entity_phrases_tagged (entity_phrases : Dict (Tagged (Finset String)))
    (o : Dict (Tagged (Finset String))) (n : Nat) :
    Dict (Tagged (Finset String)) × Nat :=
  o.foldl (fun acc p =>
    match dictGet? acc.1 p.1 with
    | some s => (dictSet acc.1 p.1 ⟨acc.2, s.val ∪ p.2.val⟩, acc.2 + 1)
    | none => (dictSet acc.1 p.1 p.2, acc.2)) (entity_phrases, n)

/-- A `TrainingData` object with identities on its mutable sub-structures:
the example objects, the synonym dict object (its string contents are
immutable), the regex-feature mapping objects and the entity-phrase set
objects. -/
structure TrainingDataTagged where
  training_examples : List (Tagged Message)
  synonymsRef : Nat
  entity_synonyms : Dict String
  regex_features : List (Tagged RegexFeature)
  entity_phrases : Dict (Tagged (Finset String))
deriving DecidableEq

/-- Every identity tag reachable from a `TrainingDataTagged`. -/
def allRefs (td : TrainingDataTagged) : List Nat :=
  refsOf td.training_examples ++ [td.synonymsRef] ++
    refsOf td.regex_features ++ td.entity_phrases.map (·.2.ref)

/-- The accumulator of `merge`'s loop in the identity model. -/
structure MergeAccTagged where
  training_examples : List (Tagged Message)
  entity_synonyms : Dict String
  regex_features : List (Tagged RegexFeature)
  entity_phrases : Dict (Tagged (Finset String))
  nextRef : Nat

/-- One iteration of `merge`'s loop in the identity model: the operand's
examples and regex features are deep-copied (fresh tags), the synonym values
are merged into the (already fresh) accumulator dict, the phrase dicts are
merged with `merge_entity_phrases_tagged`. -/
def mergeTaggedStep (acc : MergeAccTagged) (o : TrainingDataTagged) :
    MergeAccTagged :=
  let te := deepcopyTagged o.training_examples acc.nextRef
  let rf := deepcopyTagged o.regex_features te.2
  let ep := merge_entity_phrases_tagged acc.entity_phrases o.entity_phrases rf.2
  { training_examples := acc.training_examples ++ te.1
    entity_synonyms := dictUpdate acc.entity_synonyms o.entity_synonyms
    regex_features := acc.regex_features ++ rf.1
    entity_phrases := ep.1
    nextRef := ep.2 }

/-- `sanitize_examples` in the identity model: the examples are mutated in
place, so their identities are unchanged. -/
def sanitizeTagged (l : List (Tagged Message)) : List (Tagged Message) :=
  l.map (fun t => ⟨t.ref, sanitizeMsg t.val⟩)

/-- `merge` in the identity model, threading the allocation counter `n`:
deep-copy `self`'s containers (`dict.copy()` allocates the fresh synonym dict
at tag `n₁`), then run the loop, then build the new instance — whose
constructor re-sorts the regex-feature objects and strips the (fresh) example
objects in place. -/
def TrainingDataTagged.merge (self : TrainingDataTagged)
    (others : List TrainingDataTagged) (n : Nat) : TrainingDataTagged × Nat :=
  let te := deepcopyTagged self.training_examples n
  let esRef := te.2
  let rf := deepcopyTagged self.regex_features (te.2 + 1)
  let ep := deepcopyPhrasesTagged self.entity_phrases rf.2
  let acc := others.foldl mergeTaggedStep
    { training_examples := te.1
      entity_synonyms := self.entity_synonyms
      regex_features := rf.1
      entity_phrases := ep.1
      nextRef := ep.2 }
  ({ training_examples := sanitizeTagged acc.training_examples
     synonymsRef := esRef
     entity_synonyms := acc.entity_synonyms
     regex_features := sortByKey (fun t => featKey t.val) acc.regex_features
     entity_phrases := acc.entity_phrases }, acc.nextRef)

/-- A dataset with no content: the first operand of the aliasing
counterexample. -/
def cxSelf : TrainingDataTagged :=
  { training_examples := []
    synonymsRef := 0
    entity_synonyms := []
    regex_features := []
    entity_phrases := [] }

/-- A dataset holding one entity-phrase set, the set object with tag `7`:
the second operand of the aliasing counterexample. -/
def cxOperand : TrainingDataTagged :=
  { training_examples := []
    synonymsRef := 1
    entity_synonyms := []
    regex_features := []
    entity_phrases := [("city", ⟨7, {"Paris"}⟩)] }

/-- Being sorted ascending by a string key, for the two stable sorts of the
source (`pyLe` is the total order underlying Python string comparison). -/
def sortedByKey {α : Type} (key : α → String) (l : List α) : Prop :=
  l.Pairwise (fun u v => pyLe (key u) (key v) = true)

/-- Recognises the duplicate-synonym warning for surface text `k`. -/
def isDupSynonymWarnFor (k : String) : Warning → Bool
  | .duplicateSynonym t _ _ _ => t == k
  | _ => false

/-- Recognises a below-minimum warning for intent `i`. -/
def isIntentWarnFor (i : Option String) : Warning → Bool
  | .intentBelowMin j _ => j == i
  | _ => false

/-- Recognises a below-minimum warning for entity type `e`. -/
def isEntityWarnFor (e : String) : Warning → Bool
  | .entityBelowMin f _ => f == e
  | _ => false

/-! ## Lemmas: the string order -/

theorem char_toNat_inj {a b : Char} (h : a.toNat = b.toNat) : a = b :=
  Char.eq_of_val_eq (UInt32.eq_of_toBitVec_eq (BitVec.toNat_injective h))

theorem string_data_inj {s t : String} (h : s.data = t.data) : s = t := by
  cases s; cases t; exact congrArg String.mk h

theorem strLtb_irrefl (l : List Char) : strLtb l l = false := by
  induction l with
  | nil => rfl
  | cons a t ih => simp [strLtb, ih]

theorem strLtb_trans {a : List Char} : ∀ {b c : List Char},
    strLtb a b = true → strLtb b c = true → strLtb a c = true := by
  induction a with
  | nil =>
    intro b c hab hbc
    cases b with
    | nil => simp [strLtb] at hab
    | cons y t =>
      cases c with
      | nil => simp [strLtb] at hbc
      | cons z u => simp [strLtb]
  | cons x s ih =>
    intro b c hab hbc
    cases b with
    | nil => simp [strLtb] at hab
    | cons y t =>
      cases c with
      | nil => simp [strLtb] at hbc
      | cons z u =>
        simp only [strLtb] at hab hbc ⊢
        by_cases h1 : x.toNat < y.toNat
        · by_cases h2 : y.toNat < z.toNat
          · simp [h1.trans h2]
          · by_cases h3 : z.toNat < y.toNat
            · simp [h2, h3] at hbc
            · have : x.toNat < z.toNat := by omega
              simp [this]
        · by_cases h3 : y.toNat < x.toNat
          · simp [h1, h3] at hab
          · simp only [h1, h3, if_false] at hab
            by_cases h2 : y.toNat < z.toNat
            · have : x.toNat < z.toNat := by omega
              simp [this]
            · by_cases h4 : z.toNat < y.toNat
              · simp [h2, h4] at hbc
              · simp only [h2, h4, if_false] at hbc
                have hxz : ¬ x.toNat < z.toNat := by omega
                have hzx : ¬ z.toNat < x.toNat := by omega
                simp only [hxz, hzx, if_false]
                exact ih hab hbc

theorem strLtb_eq_of_both_false {a : List Char} : ∀ {b : List Char},
    strLtb a b = false → strLtb b a = false → a = b := by
  induction a with
  | nil =>
    intro b h1 _
    cases b with
    | nil => rfl
    | cons y t => simp [strLtb] at h1
  | cons x s ih =>
    intro b h1 h2
    cases b with
    | nil => simp [strLtb] at h2
    | cons y t =>
      simp only [strLtb] at h1 h2
      by_cases hxy : x.toNat < y.toNat
      · simp [hxy] at h1
      · by_cases hyx : y.toNat < x.toNat
        · simp [hyx] at h2
        · simp only [hxy, hyx, if_false] at h1 h2
          have hx : x = y := char_toNat_inj (by omega)
          rw [hx, ih h1 h2]

theorem pyLt_irrefl (s : String) : pyLt s s = false := strLtb_irrefl _

theorem pyLt_trans {a b c : String} (h1 : pyLt a b = true)
    (h2 : pyLt b c = true) : pyLt a c = true := strLtb_trans h1 h2

theorem pyLt_antisymm {a b : String} (h1 : pyLt a b = false)
    (h2 : pyLt b a = false) : a = b :=
  string_data_inj (strLtb_eq_of_both_false h1 h2)

theorem pyLt_asymm {a b : String} (h : pyLt a b = true) : pyLt b a = false := by
  by_contra hne
  have hba : pyLt b a = true := by
    cases hx : pyLt b a
    · exact absurd hx hne
    · rfl
  have := pyLt_trans h hba
  rw [pyLt_irrefl] at this
  exact Bool.false_ne_true this

theorem pyLe_eq_true_iff {s t : String} : pyLe s t = true ↔ pyLt t s = false := by
  simp [pyLe]

/-! ## Lemmas: the stable insertion sort -/

theorem mem_insertByKey {α : Type} (key : α → String) (a x : α) :
    ∀ l : List α, x ∈ insertByKey key a l ↔ x = a ∨ x ∈ l := by
  intro l
  induction l with
  | nil => simp [insertByKey]
  | cons b t ih =>
    simp only [insertByKey]
    split
    · simp only [List.mem_cons]
    · simp only [List.mem_cons, ih]
      tauto

theorem insertByKey_sorted {α : Type} (key : α → String) (a : α) :
    ∀ {l : List α}, sortedByKey key l → sortedByKey key (insertByKey key a l) := by
  intro l
  induction l with
  | nil =>
    intro _
    simp [insertByKey, sortedByKey]
  | cons b t ih =>
    intro h
    rw [sortedByKey, List.pairwise_cons] at h
    obtain ⟨hb, ht⟩ := h
    simp only [insertByKey]
    split
    case isTrue hab =>
      rw [sortedByKey, List.pairwise_cons]
      refine ⟨fun x hx => ?_, List.pairwise_cons.mpr ⟨hb, ht⟩⟩
      rcases List.mem_cons.mp hx with rfl | hxt
      · exact pyLe_eq_true_iff.mpr (pyLt_asymm hab)
      · refine pyLe_eq_true_iff.mpr ?_
        have hbx := pyLe_eq_true_iff.mp (hb x hxt)
        cases hxa : pyLt (key x) (key a)
        · rfl
        · have := pyLt_trans hxa hab
          rw [hbx] at this
          exact absurd this Bool.false_ne_true
    case isFalse hab =>
      rw [sortedByKey, List.pairwise_cons]
      refine ⟨fun x hx => ?_, ih ht⟩
      rcases (mem_insertByKey key a x t).mp hx with rfl | hxt
      · exact pyLe_eq_true_iff.mpr (Bool.of_not_eq_true hab)
      · exact hb x hxt

theorem filter_insertByKey_ne {α : Type} (key : α → String) (a : α)
    (k : String) (hne : key a ≠ k) :
    ∀ l : List α, (insertByKey key a l).filter (fun e => key e == k) =
      l.filter (fun e => key e == k) := by
  intro l
  induction l with
  | nil => simp [insertByKey, List.filter_cons, hne]
  | cons b t ih =>
    simp only [insertByKey]
    split
    · simp [List.filter_cons, hne]
    · simp [List.filter_cons, ih]

theorem filter_insertByKey_eq {α : Type} (key : α → String) (a : α)
    (k : String) (hk : key a = k) :
    ∀ l : List α, sortedByKey key l →
      (insertByKey key a l).filter (fun e => key e == k) =
        l.filter (fun e => key e == k) ++ [a] := by
  intro l
  induction l with
  | nil =>
    intro _
    simp [insertByKey, List.filter_cons, hk]
  | cons b t ih =>
    intro hs
    rw [sortedByKey, List.pairwise_cons] at hs
    obtain ⟨hb, ht⟩ := hs
    simp only [insertByKey]
    split
    case isTrue hab =>
      have hbk : key b ≠ k := by
        intro hbk
        rw [hk, ← hbk, pyLt_irrefl] at hab
        exact Bool.false_ne_true hab
      have htk : ∀ x ∈ t, ¬ ((fun e => key e == k) x = true) := by
        intro x hx hxk
        have hxk' : key x = k := by simpa using hxk
        have hbx := pyLe_eq_true_iff.mp (hb x hx)
        rw [hxk', ← hk] at hbx
        rw [hbx] at hab
        exact Bool.false_ne_true hab
      have h1 : t.filter (fun e => key e == k) = [] :=
        List.filter_eq_nil_iff.mpr htk
      simp [List.filter_cons, hk, hbk, h1]
    case isFalse hab =>
      simp only [List.filter_cons, ih ht]
      by_cases hbk : key b = k <;> simp [hbk]

theorem foldl_insertByKey_sorted_filter {α : Type} (key : α → String) :
    ∀ (l acc : List α), sortedByKey key acc →
      sortedByKey key (l.foldl (fun acc a => insertByKey key a acc) acc) ∧
      ∀ k, (l.foldl (fun acc a => insertByKey key a acc) acc).filter
          (fun e => key e == k) =
        acc.filter (fun e => key e == k) ++ l.filter (fun e => key e == k) := by
  intro l
  induction l with
  | nil =>
    intro acc h
    simpa using h
  | cons a t ih =>
    intro acc h
    simp only [List.foldl_cons]
    obtain ⟨hs, hf⟩ := ih (insertByKey key a acc) (insertByKey_sorted key a h)
    refine ⟨hs, fun k => ?_⟩
    rw [hf k]
    by_cases hk : key a = k
    · rw [filter_insertByKey_eq key a k hk acc h]
      simp [List.filter_cons, hk]
    · rw [filter_insertByKey_ne key a k hk acc]
      simp [List.filter_cons, hk]

/-- `sortByKey` sorts ascending by the key. -/
theorem sortByKey_sorted {α : Type} (key : α → String) (l : List α) :
    sortedByKey key (sortByKey key l) :=
  (foldl_insertByKey_sorted_filter key l [] (by simp [sortedByKey])).1

/-- `sortByKey` is stable: elements with any given key keep their original
relative order. -/
theorem sortByKey_filter {α : Type} (key : α → String) (l : List α)
    (k : String) : (sortByKey key l).filter (fun e => key e == k) =
      l.filter (fun e => key e == k) := by
  have := (foldl_insertByKey_sorted_filter key l []
    (by simp [sortedByKey])).2 k
  simpa [sortByKey] using this

/-- A list sorted by key is determined by its per-key sublists: sortedness
plus stability characterise the sort uniquely. -/
theorem sorted_unique_of_filter {α : Type} (key : α → String) :
    ∀ {l1 l2 : List α}, sortedByKey key l1 → sortedByKey key l2 →
      (∀ k, l1.filter (fun e => key e == k) = l2.filter (fun e => key e == k)) →
      l1 = l2 := by
  intro l1
  induction l1 with
  | nil =>
    intro l2 _ _ hf
    cases l2 with
    | nil => rfl
    | cons b t =>
      have := hf (key b)
      simp [List.filter_cons] at this
  | cons a t1 ih =>
    intro l2 h1 h2 hf
    cases l2 with
    | nil =>
      have := hf (key a)
      simp [List.filter_cons] at this
    | cons b t2 =>
      rw [sortedByKey, List.pairwise_cons] at h1 h2
      obtain ⟨ha1, ht1⟩ := h1
      obtain ⟨hb2, ht2⟩ := h2
      have hab : a = b := by
        by_cases heq : a = b
        · exact heq
        · have hamem : a ∈ b :: t2 := by
            have : a ∈ (b :: t2).filter (fun e => key e == key a) := by
              rw [← hf (key a)]
              simp [List.filter_cons]
            exact List.mem_of_mem_filter this
          have hbmem : b ∈ a :: t1 := by
            have : b ∈ (a :: t1).filter (fun e => key e == key b) := by
              rw [hf (key b)]
              simp [List.filter_cons]
            exact List.mem_of_mem_filter this
          have hat2 : a ∈ t2 := by
            rcases List.mem_cons.mp hamem with h | h
            · exact absurd h heq
            · exact h
          have hbt1 : b ∈ t1 := by
            rcases List.mem_cons.mp hbmem with h | h
            · exact absurd h.symm heq
            · exact h
          have hle1 := pyLe_eq_true_iff.mp (ha1 b hbt1)
          have hle2 := pyLe_eq_true_iff.mp (hb2 a hat2)
          have hkey : key a = key b := pyLt_antisymm hle2 hle1
          have heq2 := hf (key a)
          simp only [List.filter_cons, beq_iff_eq, hkey, if_true] at heq2
          exact (List.cons.inj heq2).1
      subst hab
      have hft : ∀ k, t1.filter (fun e => key e == k) =
          t2.filter (fun e => key e == k) := by
        intro k
        have heq2 := hf k
        rw [List.filter_cons, List.filter_cons] at heq2
        by_cases hk : key a = k
        · simp only [beq_iff_eq, hk, if_true] at heq2
          exact (List.cons.inj heq2).2
        · simpa only [beq_iff_eq, hk, if_false] using heq2
      exact congrArg _ (ih ht1 ht2 hft)

/-- C3: Immediately after construction of any `TrainingData`, the stored
regex feature sequence is sorted ascending by the composite string key
`name ++ "+" ++ pattern` (string comparison of the concatenation), and the
sort is stable: for every key value, the features carrying it appear in their
original relative order. -/
theorem C3_regex_features_sorted_stable (te : List Message) (es : Dict String)
    (rf : List RegexFeature) (ep : Dict (Finset String)) :
    sortedByKey featKey (TrainingData.init te es rf ep).regex_features ∧
    ∀ k, (TrainingData.init te es rf ep).regex_features.filter
        (fun e => featKey e == k) = rf.filter (fun e => featKey e == k) :=
  ⟨sortByKey_sorted featKey rf, fun k => sortByKey_filter featKey rf k⟩

/-! ## Lemmas: dict operations -/

theorem dictGet_dictSet_self {V : Type} (k : String) (v : V) :
    ∀ d : Dict V, dictGet? (dictSet d k v) k = some v := by
  intro d
  induction d with
  | nil => simp [dictSet, dictGet?, List.find?]
  | cons p t ih =>
    obtain ⟨k', v'⟩ := p
    simp only [dictSet]
    split
    case isTrue h => simp [dictGet?, List.find?]
    case isFalse h =>
      simp only [dictGet?, List.find?] at ih ⊢
      have : (decide (k' = k)) = false := by
        simp
        intro he
        exact h he.symm
      rw [this]
      exact ih

theorem dictGet_dictSet_ne {V : Type} (k k' : String) (v : V) (hne : k' ≠ k) :
    ∀ d : Dict V, dictGet? (dictSet d k v) k' = dictGet? d k' := by
  have hkk : ¬ (k = k') := fun h => hne h.symm
  intro d
  induction d with
  | nil => simp [dictSet, dictGet?, List.find?, hkk]
  | cons p t ih =>
    obtain ⟨k0, v0⟩ := p
    simp only [dictSet]
    split
    case isTrue h =>
      subst h
      simp [dictGet?, List.find?, hkk]
    case isFalse h =>
      by_cases h3 : k0 = k'
      · simp [dictGet?, List.find?, h3]
      · simpa [dictGet?, List.find?, h3] using ih

/-- `d.update(other)` looked up at `k`: the last binding of `k` in `other`
wins, otherwise `d`'s binding survives. With `other` a real dict (unique
keys), "last" is just "its" binding. -/
theorem dictGet_dictUpdate {V : Type} :
    ∀ (other d : Dict V) (k : String), (dictKeys other).Nodup →
      dictGet? (dictUpdate d other) k =
        ((dictGet? other k).map some).getD (dictGet? d k) := by
  intro other
  induction other with
  | nil =>
    intro d k _
    simp [dictUpdate, dictGet?, List.find?]
  | cons p t ih =>
    intro d k hnd
    obtain ⟨k0, v0⟩ := p
    simp only [dictKeys, List.map_cons, List.nodup_cons] at hnd
    obtain ⟨hk0, hnd'⟩ := hnd
    simp only [dictUpdate, List.foldl_cons]
    have step := ih (dictSet d k0 v0) k hnd'
    rw [dictUpdate] at step
    rw [step]
    by_cases hk : k = k0
    · subst hk
      have hfind : t.find? (fun p => decide (p.1 = k)) = none := by
        rw [List.find?_eq_none]
        intro p hp hpk
        exact hk0 (List.mem_map.mpr ⟨p, hp, of_decide_eq_true hpk⟩)
      have hnone : dictGet? t k = none := by
        rw [dictGet?, hfind]
        rfl
      rw [hnone, dictGet_dictSet_self]
      simp [dictGet?, List.find?]
    · have hk0k : ¬ (k0 = k) := fun h => hk h.symm
      rw [dictGet_dictSet_ne k0 k v0 hk d]
      simp [dictGet?, List.find?, hk0k]

/-! ## Lemmas: synonym merging -/

theorem countP_check_duplicate_self (acc : Dict String) (k v c : String) :
    (check_duplicate_synonym acc k v c).countP (isDupSynonymWarnFor k) =
      match dictGet? acc k with
      | some w => if w ≠ v then 1 else 0
      | none => 0 := by
  rw [check_duplicate_synonym]
  cases dictGet? acc k with
  | none => rfl
  | some w =>
    by_cases hw : w = v
    · simp [hw]
    · simp [hw, isDupSynonymWarnFor, List.countP_cons]

theorem countP_check_duplicate_ne (acc : Dict String) (k0 v c k : String)
    (hne : k0 ≠ k) :
    (check_duplicate_synonym acc k0 v c).countP (isDupSynonymWarnFor k) = 0 := by
  rw [check_duplicate_synonym]
  cases dictGet? acc k0 with
  | none => rfl
  | some w =>
    by_cases hw : w = v
    · simp [hw]
    · simp [hw, isDupSynonymWarnFor, List.countP_cons, hne]

theorem countP_checks_not_mem (acc : Dict String) (c k : String) :
    ∀ t : Dict String, k ∉ dictKeys t →
      ((t.map (fun p => check_duplicate_synonym acc p.1 p.2 c)).flatten).countP
        (isDupSynonymWarnFor k) = 0 := by
  intro t
  induction t with
  | nil => intro _; rfl
  | cons p t ih =>
    intro hk
    simp only [dictKeys, List.map_cons, List.mem_cons] at hk
    push_neg at hk
    simp only [List.map_cons, List.flatten_cons, List.countP_append]
    rw [countP_check_duplicate_ne acc p.1 p.2 c k (fun h => hk.1 h.symm)]
    rw [ih (by simpa [dictKeys] using hk.2)]

/-- C2: During `_merge_entity_synonyms`, for every key of the operand's
synonym map: if the key exists in the accumulator with a different value,
exactly one duplicate-synonym warning is emitted for it; if it is absent or
the values agree, no warning; either way the resulting map binds the key to
the operand's value (last-writer-wins), so the merge is never blocked. -/
theorem C2_synonym_merge_warns_overwrites (acc o : Dict String)
    (k v : String) (hnd : (dictKeys o).Nodup) (hin : dictGet? o k = some v) :
    dictGet? (merge_entity_synonyms acc o).2 k = some v ∧
    (merge_entity_synonyms acc o).1.countP (isDupSynonymWarnFor k) =
      (match dictGet? acc k with
       | some w => if w ≠ v then 1 else 0
       | none => 0) := by
  constructor
  · have := dictGet_dictUpdate o acc k hnd
    rw [merge_entity_synonyms, this, hin]
    rfl
  · rw [merge_entity_synonyms]
    induction o with
    | nil => simp [dictGet?, List.find?] at hin
    | cons p t ih =>
      obtain ⟨k0, v0⟩ := p
      simp only [dictKeys, List.map_cons, List.nodup_cons] at hnd
      obtain ⟨hk0, hnd'⟩ := hnd
      simp only [List.map_cons, List.flatten_cons, List.countP_append]
      by_cases hk : k0 = k
      · subst hk
        have hv : v0 = v := by
          simp [dictGet?, List.find?] at hin
          exact hin
        subst hv
        rw [countP_check_duplicate_self]
        rw [countP_checks_not_mem acc _ k0 t hk0]
        omega
      · have hint : dictGet? t k = some v := by
          simpa [dictGet?, List.find?, hk] using hin
        rw [countP_check_duplicate_ne acc k0 v0 _ k hk]
        rw [ih (by simpa [dictKeys] using hnd') hint]
        omega

/-! ## Lemmas: phrase merging -/

theorem dictGet_merge_entity_phrases :
    ∀ (o acc : Dict (Finset String)) (k : String), (dictKeys o).Nodup →
      dictGet? (merge_entity_phrases acc o) k =
        match dictGet? acc k, dictGet? o k with
        | some s, some t => some (s ∪ t)
        | none, some t => some t
        | x, none => x := by
  intro o
  induction o with
  | nil =>
    intro acc k _
    rw [merge_entity_phrases]
    simp only [List.foldl_nil]
    cases dictGet? acc k <;> simp [dictGet?, List.find?]
  | cons p t ih =>
    intro acc k hnd
    obtain ⟨k0, s0⟩ := p
    simp only [dictKeys, List.map_cons, List.nodup_cons] at hnd
    obtain ⟨hk0, hnd'⟩ := hnd
    have hnd'' : (dictKeys t).Nodup := by simpa [dictKeys] using hnd'
    have hstep : merge_entity_phrases acc ((k0, s0) :: t) =
        merge_entity_phrases
          (match dictGet? acc k0 with
           | some s => dictSet acc k0 (s ∪ s0)
           | none => dictSet acc k0 s0) t := rfl
    rw [hstep]
    by_cases hk : k = k0
    · subst hk
      have htnone : dictGet? t k = none := by
        rw [dictGet?]
        have hfind : t.find? (fun p => decide (p.1 = k)) = none := by
          rw [List.find?_eq_none]
          intro p hp hpk
          exact hk0 (List.mem_map.mpr ⟨p, hp, of_decide_eq_true hpk⟩)
        rw [hfind]
        rfl
      have hhead : dictGet? ((k, s0) :: t) k = some s0 := by
        simp [dictGet?, List.find?]
      cases hacc : dictGet? acc k with
      | some s =>
        simp only []
        rw [ih _ k hnd'', htnone, hhead, dictGet_dictSet_self]
      | none =>
        simp only []
        rw [ih _ k hnd'', htnone, hhead, dictGet_dictSet_self]
    · have hk0k : ¬ (k0 = k) := fun h => hk h.symm
      have hkk : dictGet? ((k0, s0) :: t) k = dictGet? t k := by
        simp [dictGet?, List.find?, hk0k]
      rw [hkk]
      have hset : ∀ v, dictGet? (dictSet acc k0 v) k = dictGet? acc k :=
        fun v => dictGet_dictSet_ne k0 k v hk acc
      cases hacc : dictGet? acc k0 with
      | some s =>
        simp only []
        rw [ih _ k hnd'', hset]
      | none =>
        simp only []
        rw [ih _ k hnd'', hset]

theorem getD_merge_entity_phrases (acc o : Dict (Finset String)) (k : String)
    (hnd : (dictKeys o).Nodup) :
    (dictGet? (merge_entity_phrases acc o) k).getD ∅ =
      (dictGet? acc k).getD ∅ ∪ (dictGet? o k).getD ∅ := by
  rw [dictGet_merge_entity_phrases o acc k hnd]
  cases dictGet? acc k <;> cases dictGet? o k <;> simp

/-- The four components accumulated by `merge`'s loop, separately. -/
theorem mergeStep_foldl_components :
    ∀ (others : List TrainingData) (te : List Message) (es : Dict String)
      (rf : List RegexFeature) (ep : Dict (Finset String)),
      others.foldl mergeStep (te, es, rf, ep) =
        (others.foldl (fun acc o => acc ++ o.training_examples) te,
         others.foldl
           (fun acc o => (merge_entity_synonyms acc o.entity_synonyms).2) es,
         others.foldl (fun acc o => acc ++ o.regex_features) rf,
         others.foldl (fun acc o => merge_entity_phrases acc o.entity_phrases)
           ep) := by
  intro others
  induction others with
  | nil => intro te es rf ep; rfl
  | cons o t ih =>
    intro te es rf ep
    simp only [List.foldl_cons]
    exact ih _ _ _ _

theorem foldl_phrases_getD (k : String) :
    ∀ (others : List TrainingData) (ep : Dict (Finset String)),
      (∀ o ∈ others, (dictKeys o.entity_phrases).Nodup) →
      (dictGet? (others.foldl
          (fun acc o => merge_entity_phrases acc o.entity_phrases) ep)
        k).getD ∅ =
        others.foldl
          (fun s o => s ∪ (dictGet? o.entity_phrases k).getD ∅)
          ((dictGet? ep k).getD ∅) := by
  intro others
  induction others with
  | nil => intro ep _; rfl
  | cons o t ih =>
    intro ep hnd
    simp only [List.foldl_cons]
    rw [ih _ (fun o' ho' => hnd o' (List.mem_cons_of_mem o ho'))]
    rw [getD_merge_entity_phrases ep o.entity_phrases k
      (hnd o (List.mem_cons_self o t))]

/-- C6: merging entity-phrase maps takes, per entity type, the set union of
an existing accumulator entry with the operand's set, and adopts the
operand's set for an absent key; consequently, over a whole `merge`, the
phrase set of every entity type is the union of that type's phrase sets
across all merged datasets (folded in operand order). -/
theorem C6_phrase_merge_union (acc o : Dict (Finset String)) (k : String)
    (A : TrainingData) (others : List TrainingData)
    (hnd : (dictKeys o).Nodup)
    (hnds : ∀ o' ∈ others, (dictKeys o'.entity_phrases).Nodup) :
    (∀ s t, dictGet? acc k = some s → dictGet? o k = some t →
      dictGet? (merge_entity_phrases acc o) k = some (s ∪ t)) ∧
    (∀ t, dictGet? acc k = none → dictGet? o k = some t →
      dictGet? (merge_entity_phrases acc o) k = some t) ∧
    (dictGet? (A.merge others).entity_phrases k).getD ∅ =
      others.foldl (fun s o' => s ∪ (dictGet? o'.entity_phrases k).getD ∅)
        ((dictGet? A.entity_phrases k).getD ∅) := by
  refine ⟨fun s t hs ht => ?_, fun t hs ht => ?_, ?_⟩
  · rw [dictGet_merge_entity_phrases o acc k hnd, hs, ht]
  · rw [dictGet_merge_entity_phrases o acc k hnd, hs, ht]
  · rw [TrainingData.merge]
    simp only [mergeStep_foldl_components, TrainingData.init]
    exact foldl_phrases_getD k others A.entity_phrases hnds

/-- Witness for C6, at the spec's own example: `A` has
`{"city": {"Paris"}}`, `B` has `{"city": {"London"}}`; the merged phrase set
for `"city"` is `{"Paris", "London"}`. -/
theorem C6_phrase_merge_union_witness :
    dictGet? (merge_entity_phrases [("city", {"Paris"})] [("city", {"London"})])
        "city" = some ({"Paris", "London"} : Finset String) ∧
    (dictGet? (TrainingData.merge ⟨[], [], [], [("city", {"Paris"})]⟩
        [⟨[], [], [], [("city", {"London"})]⟩]).entity_phrases
      "city").getD ∅ = ({"Paris", "London"} : Finset String) := by
  have h := C6_phrase_merge_union [("city", {"Paris"})] [("city", {"London"})]
    "city" ⟨[], [], [], [("city", {"Paris"})]⟩ [⟨[], [], [], [("city", {"London"})]⟩]
    (by decide) (by intro o' ho'; fin_cases ho'; decide)
  refine ⟨?_, ?_⟩
  · rw [h.1 {"Paris"} {"London"} (by decide) (by decide)]
    decide
  · rw [h.2.2]
    decide

/-- Witness for C2, at the spec's own example: accumulator
`{"NYC": "New York"}`, operand `{"NYC": "new york city"}`: exactly one
duplicate-synonym warning, and the result maps `"NYC"` to the operand's
value. -/
theorem C2_synonym_merge_warns_overwrites_witness :
    dictGet? (merge_entity_synonyms [("NYC", "New York")]
        [("NYC", "new york city")]).2 "NYC" = some "new york city" ∧
    (merge_entity_synonyms [("NYC", "New York")]
        [("NYC", "new york city")]).1.countP (isDupSynonymWarnFor "NYC") = 1 := by
  have h := C2_synonym_merge_warns_overwrites [("NYC", "New York")]
    [("NYC", "new york city")] "NYC" "new york city" (by decide) (by decide)
  refine ⟨h.1, ?_⟩
  rw [h.2]
  decide

/-! ## Lemmas: counters -/

theorem dictKeysAny_bumpCount {α : Type} [DecidableEq α]
    (d : List (α × Nat)) (a : α) :
    (bumpCount d a).map Prod.fst =
      if a ∈ d.map Prod.fst then d.map Prod.fst else d.map Prod.fst ++ [a] := by
  induction d with
  | nil => simp [bumpCount]
  | cons p t ih =>
    obtain ⟨b, n⟩ := p
    simp only [bumpCount]
    split
    case isTrue h =>
      subst h
      simp
    case isFalse h =>
      simp only [List.map_cons, List.mem_cons]
      rw [ih]
      by_cases hm : a ∈ t.map Prod.fst <;> simp [hm, h]

theorem countP_bumpCount {α : Type} [DecidableEq α]
    (d : List (α × Nat)) (a i : α) :
    (bumpCount d a).countP (fun p => p.1 == i) =
      d.countP (fun p => p.1 == i) + (if a = i ∧ a ∉ d.map Prod.fst then 1 else 0) := by
  induction d with
  | nil =>
    by_cases hai : a = i <;> simp [bumpCount, List.countP_cons, hai]
  | cons p t ih =>
    obtain ⟨b, n⟩ := p
    simp only [bumpCount]
    split
    case isTrue h =>
      subst h
      simp only [List.countP_cons, List.map_cons, List.mem_cons]
      have : ¬ (a = i ∧ ¬ (a = a ∨ a ∈ t.map Prod.fst)) := by
        intro hx
        exact hx.2 (Or.inl rfl)
      simp [this]
    case isFalse h =>
      simp only [List.countP_cons, List.map_cons, List.mem_cons]
      rw [ih]
      have hab : (a = b ∨ a ∈ t.map Prod.fst) ↔ a ∈ t.map Prod.fst := by
        constructor
        · intro hx
          rcases hx with hx | hx
          · exact absurd hx h
          · exact hx
        · exact Or.inr
      simp only [hab]
      omega

theorem bumpCount_keys_nodup {α : Type} [DecidableEq α]
    (d : List (α × Nat)) (a : α) (h : (d.map Prod.fst).Nodup) :
    ((bumpCount d a).map Prod.fst).Nodup := by
  rw [dictKeysAny_bumpCount]
  split
  case isTrue => exact h
  case isFalse hm => simp [List.nodup_append, h, hm]

theorem counter_keys_nodup {α : Type} [DecidableEq α] (l : List α) :
    ((counter l).map Prod.fst).Nodup := by
  have haux : ∀ (l : List α) (acc : List (α × Nat)), (acc.map Prod.fst).Nodup →
      ((l.foldl bumpCount acc).map Prod.fst).Nodup := by
    intro l
    induction l with
    | nil => intro acc h; exact h
    | cons a t ih =>
      intro acc h
      exact ih (bumpCount acc a) (bumpCount_keys_nodup acc a h)
  exact haux l [] (by simp)

theorem counter_mem_keys {α : Type} [DecidableEq α] (l : List α) (i : α) :
    i ∈ (counter l).map Prod.fst ↔ i ∈ l := by
  have haux : ∀ (l : List α) (acc : List (α × Nat)),
      (i ∈ (l.foldl bumpCount acc).map Prod.fst ↔
        i ∈ acc.map Prod.fst ∨ i ∈ l) := by
    intro l
    induction l with
    | nil => intro acc; simp
    | cons a t ih =>
      intro acc
      simp only [List.foldl_cons, ih (bumpCount acc a), dictKeysAny_bumpCount,
        List.mem_cons]
      split
      case isTrue hm =>
        constructor
        · intro h
          tauto
        · intro h
          rcases h with h | h | h
          · tauto
          · subst h; tauto
          · tauto
      case isFalse hm =>
        simp only [List.mem_append, List.mem_singleton]
        tauto
  rw [counter, haux l []]
  simp

theorem bumpCount_mem_of_mem_ne {α : Type} [DecidableEq α]
    (d : List (α × Nat)) (a i : α) (n : Nat) (hne : i ≠ a)
    (h : (i, n) ∈ d) : (i, n) ∈ bumpCount d a := by
  induction d with
  | nil => simp at h
  | cons p t ih =>
    obtain ⟨b, m⟩ := p
    simp only [bumpCount]
    split
    case isTrue hb =>
      subst hb
      rcases List.mem_cons.mp h with h | h
      · exact absurd (congrArg Prod.fst h) (by simpa using hne)
      · exact List.mem_cons_of_mem _ h
    case isFalse hb =>
      rcases List.mem_cons.mp h with h | h
      · exact h ▸ List.mem_cons_self _ _
      · exact List.mem_cons_of_mem _ (ih h)

theorem bumpCount_mem_of_mem_eq {α : Type} [DecidableEq α]
    (d : List (α × Nat)) (i : α) (n : Nat) (hnd : (d.map Prod.fst).Nodup)
    (h : (i, n) ∈ d) : (i, n + 1) ∈ bumpCount d i := by
  induction d with
  | nil => simp at h
  | cons p t ih =>
    obtain ⟨b, m⟩ := p
    simp only [List.map_cons, List.nodup_cons] at hnd
    obtain ⟨hb, hnd'⟩ := hnd
    simp only [bumpCount]
    split
    case isTrue hbi =>
      subst hbi
      rcases List.mem_cons.mp h with h | h
      · have h2 : n = m := (Prod.mk.inj h).2
        subst h2
        exact List.mem_cons_self _ _
      · exact absurd (List.mem_map.mpr ⟨(i, n), h, rfl⟩) hb
    case isFalse hbi =>
      rcases List.mem_cons.mp h with h | h
      · have h1 : i = b := (Prod.mk.inj h).1
        exact absurd h1 hbi
      · exact List.mem_cons_of_mem _ (ih hnd' h)

theorem bumpCount_mem_new {α : Type} [DecidableEq α]
    (d : List (α × Nat)) (i : α) (h : i ∉ d.map Prod.fst) :
    (i, 1) ∈ bumpCount d i := by
  induction d with
  | nil => simp [bumpCount]
  | cons p t ih =>
    obtain ⟨b, m⟩ := p
    simp only [List.map_cons, List.mem_cons] at h
    push_neg at h
    simp only [bumpCount]
    split
    case isTrue hbi => exact absurd hbi h.1
    case isFalse hbi => exact List.mem_cons_of_mem _ (ih h.2)

theorem countOcc_cons {α : Type} [DecidableEq α] (b : α) (t : List α)
    (i : α) : countOcc (b :: t) i = countOcc t i + (if b = i then 1 else 0) := by
  simp [countOcc, List.countP_cons]

theorem countOcc_pos_mem {α : Type} [DecidableEq α] {l : List α} {i : α}
    (h : 0 < countOcc l i) : i ∈ l := by
  obtain ⟨a, ha, hp⟩ := List.countP_pos_iff.mp h
  exact (of_decide_eq_true hp) ▸ ha

theorem foldl_bumpCount_mem {α : Type} [DecidableEq α] :
    ∀ (rest : List α) (acc : List (α × Nat)) (i : α) (n : Nat),
      (acc.map Prod.fst).Nodup → (i, n) ∈ acc →
      (i, n + countOcc rest i) ∈ rest.foldl bumpCount acc := by
  intro rest
  induction rest with
  | nil => intro acc i n _ h; simpa [countOcc] using h
  | cons a t ih =>
    intro acc i n hnd h
    simp only [List.foldl_cons, countOcc_cons]
    by_cases hai : a = i
    · subst hai
      rw [if_pos rfl, show n + (countOcc t a + 1) = n + 1 + countOcc t a from
        by omega]
      exact ih (bumpCount acc a) a (n + 1)
        (bumpCount_keys_nodup acc a hnd) (bumpCount_mem_of_mem_eq acc a n hnd h)
    · rw [if_neg hai, Nat.add_zero]
      exact ih (bumpCount acc a) i n
        (bumpCount_keys_nodup acc a hnd)
        (bumpCount_mem_of_mem_ne acc a i n (fun he => hai he.symm) h)

theorem foldl_bumpCount_mem_new {α : Type} [DecidableEq α] :
    ∀ (rest : List α) (acc : List (α × Nat)) (i : α),
      (acc.map Prod.fst).Nodup → i ∉ acc.map Prod.fst → i ∈ rest →
      (i, countOcc rest i) ∈ rest.foldl bumpCount acc := by
  intro rest
  induction rest with
  | nil => intro acc i _ _ h; simp at h
  | cons a t ih =>
    intro acc i hnd hni hmem
    simp only [List.foldl_cons, countOcc_cons]
    by_cases hai : a = i
    · subst hai
      rw [if_pos rfl, show countOcc t a + 1 = 1 + countOcc t a from by omega]
      exact foldl_bumpCount_mem t (bumpCount acc a) a 1
        (bumpCount_keys_nodup acc a hnd) (bumpCount_mem_new acc a hni)
    · have hmem' : i ∈ t := by
        rcases List.mem_cons.mp hmem with h | h
        · exact absurd h.symm hai
        · exact h
      have hni' : i ∉ (bumpCount acc a).map Prod.fst := by
        rw [dictKeysAny_bumpCount]
        split
        · exact hni
        · simp only [List.mem_append, List.mem_singleton]
          rintro (h | h)
          · exact hni h
          · exact hai h.symm
      rw [if_neg hai, Nat.add_zero]
      exact ih (bumpCount acc a) i (bumpCount_keys_nodup acc a hnd) hni' hmem' 

theorem counter_mem_count {α : Type} [DecidableEq α] (l : List α) (i : α)
    (h : i ∈ l) : (i, countOcc l i) ∈ counter l :=
  foldl_bumpCount_mem_new l [] i (by simp) (by simp) h

theorem assoc_nodup_value_unique {α : Type} [DecidableEq α] :
    ∀ (d : List (α × Nat)) (i : α) (n m : Nat), (d.map Prod.fst).Nodup →
      (i, n) ∈ d → (i, m) ∈ d → n = m := by
  intro d
  induction d with
  | nil => intro i n m _ h; simp at h
  | cons p t ih =>
    intro i n m hnd hn hm
    obtain ⟨b, c⟩ := p
    simp only [List.map_cons, List.nodup_cons] at hnd
    obtain ⟨hb, hnd'⟩ := hnd
    rcases List.mem_cons.mp hn with hn1 | hn1 <;>
      rcases List.mem_cons.mp hm with hm1 | hm1
    · have h2 : n = c := (Prod.mk.inj hn1).2
      have h4 : m = c := (Prod.mk.inj hm1).2
      omega
    · have h1 : i = b := (Prod.mk.inj hn1).1
      exact absurd (List.mem_map.mpr ⟨(i, m), hm1, h1⟩) hb
    · have h1 : i = b := (Prod.mk.inj hm1).1
      exact absurd (List.mem_map.mpr ⟨(i, n), hn1, h1⟩) hb
    · exact ih i n m hnd' hn1 hm1

theorem counter_entry_count {α : Type} [DecidableEq α] (l : List α) (i : α)
    (n : Nat) (h : (i, n) ∈ counter l) : n = countOcc l i ∧ i ∈ l := by
  have hkey : i ∈ (counter l).map Prod.fst := List.mem_map.mpr ⟨(i, n), h, rfl⟩
  have hl : i ∈ l := (counter_mem_keys l i).mp hkey
  exact ⟨assoc_nodup_value_unique (counter l) i n (countOcc l i)
    (counter_keys_nodup l) h (counter_mem_count l i hl), hl⟩

theorem counter_exists_lt_iff {α : Type} [DecidableEq α] (l : List α) (i : α)
    (M : Nat) :
    (∃ p ∈ counter l, p.1 = i ∧ p.2 < M) ↔ (i ∈ l ∧ countOcc l i < M) := by
  constructor
  · rintro ⟨p, hp, h1, h2⟩
    obtain ⟨pa, pn⟩ := p
    subst h1
    obtain ⟨hc, hl⟩ := counter_entry_count l pa pn hp
    exact ⟨hl, hc ▸ h2⟩
  · rintro ⟨hl, hlt⟩
    exact ⟨(i, countOcc l i), counter_mem_count l i hl, rfl, hlt⟩

/-! ## Lemmas: validation warnings -/

theorem countP_warns_zero {α : Type} (q : Warning → Bool)
    (f : α → Nat → Warning) (M : Nat) (hq : ∀ a n, q (f a n) = false) :
    ∀ d : List (α × Nat),
      (d.filterMap (fun p => if p.2 < M then some (f p.1 p.2) else none)).countP
        q = 0 := by
  intro d
  induction d with
  | nil => rfl
  | cons p t ih =>
    obtain ⟨a, n⟩ := p
    by_cases hlt : n < M
    · simp only [List.filterMap_cons, if_pos hlt, List.countP_cons, hq, ih]
      simp
    · simp only [List.filterMap_cons, if_neg hlt, ih]

theorem countP_warns_not_mem {α : Type} [DecidableEq α] (q : Warning → Bool)
    (f : α → Nat → Warning) (M : Nat) (i : α)
    (hq : ∀ (a : α) (n : Nat), q (f a n) = (a == i)) :
    ∀ d : List (α × Nat), i ∉ d.map Prod.fst →
      (d.filterMap (fun p => if p.2 < M then some (f p.1 p.2) else none)).countP
        q = 0 := by
  intro d
  induction d with
  | nil => intro _; rfl
  | cons p t ih =>
    intro hni
    obtain ⟨a, n⟩ := p
    simp only [List.map_cons, List.mem_cons] at hni
    push_neg at hni
    have hne : (a == i) = false := beq_eq_false_iff_ne.mpr (fun h => hni.1 h.symm)
    by_cases hlt : n < M
    · simp only [List.filterMap_cons, if_pos hlt, List.countP_cons, hq,
        ih hni.2, hne]
      simp
    · simp only [List.filterMap_cons, if_neg hlt, ih hni.2]

theorem countP_warns_key {α : Type} [DecidableEq α] (q : Warning → Bool)
    (f : α → Nat → Warning) (M : Nat) (i : α)
    (hq : ∀ (a : α) (n : Nat), q (f a n) = (a == i)) :
    ∀ d : List (α × Nat), (d.map Prod.fst).Nodup →
      (d.filterMap (fun p => if p.2 < M then some (f p.1 p.2) else none)).countP
        q = if ∃ p ∈ d, p.1 = i ∧ p.2 < M then 1 else 0 := by
  intro d
  induction d with
  | nil =>
    intro _
    simp
  | cons p t ih =>
    intro hnd
    obtain ⟨a, n⟩ := p
    simp only [List.map_cons, List.nodup_cons] at hnd
    obtain ⟨ha, hnd'⟩ := hnd
    simp only [List.filterMap_cons]
    by_cases hai : a = i
    · subst hai
      have hzero : (t.filterMap
          (fun p => if p.2 < M then some (f p.1 p.2) else none)).countP q = 0 :=
        countP_warns_not_mem q f M a hq t ha
      by_cases hlt : n < M
      · have hex : ∃ p ∈ (a, n) :: t, p.1 = a ∧ p.2 < M :=
          ⟨(a, n), List.mem_cons_self _ _, rfl, hlt⟩
        rw [if_pos hex]
        simp only [List.filterMap_cons, if_pos hlt, List.countP_cons, hzero, hq]
        simp
      · have hex : ¬ ∃ p ∈ (a, n) :: t, p.1 = a ∧ p.2 < M := by
          rintro ⟨p, hmem, h1, h2⟩
          rcases List.mem_cons.mp hmem with h | h
          · subst h
            simp only [] at h1 h2
            omega
          · obtain ⟨pa, pn⟩ := p
            subst h1
            exact ha (List.mem_map.mpr ⟨(pa, pn), h, rfl⟩)
        rw [if_neg hex]
        simp only [List.filterMap_cons, if_neg hlt, hzero]
    · have hiff : (∃ p ∈ (a, n) :: t, p.1 = i ∧ p.2 < M) ↔
          (∃ p ∈ t, p.1 = i ∧ p.2 < M) := by
        constructor
        · rintro ⟨p, hmem, h1, h2⟩
          rcases List.mem_cons.mp hmem with h | h
          · subst h
            simp only [] at h1
            exact absurd h1 hai
          · exact ⟨p, h, h1, h2⟩
        · rintro ⟨p, hmem, h1, h2⟩
          exact ⟨p, List.mem_cons_of_mem _ hmem, h1, h2⟩
      rw [if_congr hiff rfl rfl]
      have hne : (a == i) = false := beq_eq_false_iff_ne.mpr hai
      by_cases hlt : n < M
      · simp only [List.filterMap_cons, if_pos hlt, List.countP_cons,
          ih hnd', hq, hne]
        simp
      · simp only [List.filterMap_cons, if_neg hlt, ih hnd']

theorem emptyIntent_not_mem_warns {α : Type}
    (f : α → Nat → Warning) (M : Nat)
    (hq : ∀ (a : α) (n : Nat), f a n ≠ Warning.emptyIntent) :
    ∀ d : List (α × Nat),
      Warning.emptyIntent ∉
        d.filterMap (fun p => if p.2 < M then some (f p.1 p.2) else none) := by
  intro d
  induction d with
  | nil => simp
  | cons p t ih =>
    obtain ⟨a, n⟩ := p
    by_cases hlt : n < M
    · simp only [List.filterMap_cons, if_pos hlt, List.mem_cons]
      rintro (h | h)
      · exact hq a n h.symm
      · exact ih h
    · simp only [List.filterMap_cons, if_neg hlt]
      exact ih

theorem sanitizeMsg_intent_empty_iff (m : Message) :
    (sanitizeMsg m).intent = some "" ↔
      ∃ s, m.intent = some s ∧ pyStrip s = "" := by
  cases hm : m.intent with
  | none =>
    have ht : m.intentTruthy = false := by
      rw [Message.intentTruthy, hm]
    rw [sanitizeMsg, ht]
    simp [hm]
  | some s =>
    by_cases hs : s = ""
    · subst hs
      have ht : m.intentTruthy = false := by
        rw [Message.intentTruthy, hm]
        simp
      rw [sanitizeMsg, ht]
      simp [hm, show pyStrip "" = "" from rfl]
    · have ht : m.intentTruthy = true := by
        rw [Message.intentTruthy, hm]
        simp [hs]
      rw [sanitizeMsg, ht]
      simp [hm]

/-- C9: `validate` emits the empty-intent warning iff some example's intent,
after construction-time whitespace trimming, is the empty string (in
particular a whitespace-only intent triggers it; absent or non-empty trimmed
intents do not). -/
theorem C9_empty_intent_warning (te : List Message) (es : Dict String)
    (rf : List RegexFeature) (ep : Dict (Finset String)) :
    Warning.emptyIntent ∈ (TrainingData.init te es rf ep).validate ↔
      ∃ m ∈ te, ∃ s, m.intent = some s ∧ pyStrip s = "" := by
  have h2 := emptyIntent_not_mem_warns Warning.intentBelowMin
    MIN_EXAMPLES_PER_INTENT (fun a n h => Warning.noConfusion h)
    (TrainingData.init te es rf ep).examples_per_intent
  have h3 := emptyIntent_not_mem_warns Warning.entityBelowMin
    MIN_EXAMPLES_PER_ENTITY (fun a n h => Warning.noConfusion h)
    (TrainingData.init te es rf ep).examples_per_entity
  have hiff : (some "" ∈ (TrainingData.init te es rf ep).intents) ↔
      ∃ m ∈ te, ∃ s, m.intent = some s ∧ pyStrip s = "" := by
    simp only [TrainingData.intents, TrainingData.init, Finset.mem_sdiff,
      List.mem_toFinset, Finset.mem_singleton, sanitize_examples,
      List.map_map]
    rw [List.mem_map]
    constructor
    · rintro ⟨⟨m, hm, hms⟩, _⟩
      exact ⟨m, hm, (sanitizeMsg_intent_empty_iff m).mp hms⟩
    · rintro ⟨m, hm, hs⟩
      refine ⟨⟨m, hm, (sanitizeMsg_intent_empty_iff m).mpr hs⟩, by simp⟩
  rw [TrainingData.validate]
  simp only [List.mem_append, h2, h3, or_false]
  rw [← hiff]
  split
  case isTrue hc => simp [hc]
  case isFalse hc => simp [hc]

/-- C8 (counterexample): in the code `intents` removes only the `None`
sentinel; a whitespace-only intent is normalised to `""` by construction and
then IS a member of `intents` — contradicting the claim that the empty
string is never a member. -/
theorem C8_intents_counterexample :
    some "" ∈ (TrainingData.init [⟨"x", some " ", []⟩] [] [] []).intents := by
  decide

/-- C8 (amended): `intents` is the set of distinct intent values occurring
across the examples, excluding only the absent (`None`) sentinel; the empty
string, when it occurs as an intent value, is a member. -/
theorem C8_intents_amended (td : TrainingData) :
    none ∉ td.intents ∧
    (∀ s : String, some s ∈ td.intents ↔
      some s ∈ td.training_examples.map Message.intent) := by
  constructor
  · simp [TrainingData.intents]
  · intro s
    simp [TrainingData.intents, List.mem_toFinset]

/-- C7: `validate` emits exactly one below-minimum warning for an intent
when its number of examples is strictly below the threshold
`MIN_EXAMPLES_PER_INTENT = 2` and none otherwise, and likewise for entity
types with `MIN_EXAMPLES_PER_ENTITY = 2`; `validate` is a total function of
the dataset (it never raises). -/
theorem C7_validate_below_minimum (td : TrainingData) (i : Option String)
    (e : String) :
    td.validate.countP (isIntentWarnFor i) =
      (if i ∈ td.training_examples.map Message.intent ∧
          countOcc (td.training_examples.map Message.intent) i <
            MIN_EXAMPLES_PER_INTENT then 1 else 0) ∧
    td.validate.countP (isEntityWarnFor e) =
      (if e ∈ td.sorted_entities.map EntitySpan.entity ∧
          countOcc (td.sorted_entities.map EntitySpan.entity) e <
            MIN_EXAMPLES_PER_ENTITY then 1 else 0) := by
  have hint := countP_warns_key (isIntentWarnFor i) Warning.intentBelowMin
    MIN_EXAMPLES_PER_INTENT i (fun a n => by simp [isIntentWarnFor])
    (counter (td.training_examples.map Message.intent))
    (counter_keys_nodup _)
  have hent := countP_warns_key (isEntityWarnFor e) Warning.entityBelowMin
    MIN_EXAMPLES_PER_ENTITY e (fun a n => by simp [isEntityWarnFor])
    (counter (td.sorted_entities.map EntitySpan.entity))
    (counter_keys_nodup _)
  have hzi := countP_warns_zero (isIntentWarnFor i) Warning.entityBelowMin
    MIN_EXAMPLES_PER_ENTITY (fun a n => by simp [isIntentWarnFor])
    (counter (td.sorted_entities.map EntitySpan.entity))
  have hze := countP_warns_zero (isEntityWarnFor e) Warning.intentBelowMin
    MIN_EXAMPLES_PER_INTENT (fun a n => by simp [isEntityWarnFor])
    (counter (td.training_examples.map Message.intent))
  have hp1i : (if some "" ∈ td.intents then [Warning.emptyIntent]
      else []).countP (isIntentWarnFor i) = 0 := by
    split
    · rfl
    · rfl
  have hp1e : (if some "" ∈ td.intents then [Warning.emptyIntent]
      else []).countP (isEntityWarnFor e) = 0 := by
    split
    · rfl
    · rfl
  constructor
  · rw [TrainingData.validate, List.countP_append, List.countP_append]
    simp only [TrainingData.examples_per_intent, TrainingData.examples_per_entity]
    rw [hp1i, hint, hzi]
    simp only [Nat.zero_add, Nat.add_zero]
    exact if_congr (counter_exists_lt_iff _ _ _) rfl rfl
  · rw [TrainingData.validate, List.countP_append, List.countP_append]
    simp only [TrainingData.examples_per_intent, TrainingData.examples_per_entity]
    rw [hp1e, hent, hze]
    simp only [Nat.zero_add, Nat.add_zero]
    exact if_congr (counter_exists_lt_iff _ _ _) rfl rfl

/-- C10: examples with no intent are counted under the `None` sentinel in
`examples_per_intent`; with exactly one such example, the sentinel carries
count 1 and `validate` emits a below-minimum warning naming it. -/
theorem C10_none_intent_counted (td : TrainingData)
    (h : countOcc (td.training_examples.map Message.intent) none = 1) :
    (none, 1) ∈ td.examples_per_intent ∧
    Warning.intentBelowMin none 1 ∈ td.validate := by
  have hmem : (none : Option String) ∈ td.training_examples.map Message.intent :=
    countOcc_pos_mem (by omega)
  have hcnt : ((none : Option String), 1) ∈ td.examples_per_intent := by
    rw [TrainingData.examples_per_intent]
    have := counter_mem_count (td.training_examples.map Message.intent) none hmem
    rwa [h] at this
  refine ⟨hcnt, ?_⟩
  rw [TrainingData.validate]
  simp only [List.mem_append]
  refine Or.inl (Or.inr ?_)
  refine List.mem_filterMap.mpr ⟨(none, 1), hcnt, ?_⟩
  rw [if_pos (by rw [MIN_EXAMPLES_PER_INTENT]; omega)]

/-- Witness for C10: a dataset built from one single example with no intent
has the `None` sentinel counted once, and warned about. -/
theorem C10_none_intent_counted_witness :
    ((none : Option String), 1) ∈
      (TrainingData.init [⟨"hello", none, []⟩] [] [] []).examples_per_intent ∧
    Warning.intentBelowMin none 1 ∈
      (TrainingData.init [⟨"hello", none, []⟩] [] [] []).validate :=
  C10_none_intent_counted _ (by decide)

/-! ## Lemmas: example concatenation and sanitization -/

theorem foldl_append_eq_flatten {α β : Type} (f : β → List α) :
    ∀ (l : List β) (init : List α),
      l.foldl (fun acc o => acc ++ f o) init = init ++ (l.map f).flatten := by
  intro l
  induction l with
  | nil => intro init; simp
  | cons o t ih =>
    intro init
    simp only [List.foldl_cons, List.map_cons, List.flatten_cons, ih,
      List.append_assoc]

theorem sanitize_examples_append (x y : List Message) :
    sanitize_examples (x ++ y) = sanitize_examples x ++ sanitize_examples y :=
  List.map_append _ x y

theorem sanitize_flatten_of_sanitized (others : List TrainingData)
    (hO : ∀ o ∈ others,
      sanitize_examples o.training_examples = o.training_examples) :
    sanitize_examples ((others.map (·.training_examples)).flatten) =
      (others.map (·.training_examples)).flatten := by
  induction others with
  | nil => rfl
  | cons o t ih =>
    simp only [List.map_cons, List.flatten_cons, sanitize_examples_append]
    rw [hO o (List.mem_cons_self o t),
      ih (fun o' h => hO o' (List.mem_cons_of_mem o h))]

/-- C5: the example sequence of `A.merge others` is exactly `A`'s examples
followed by each operand's examples in argument order, each internally
order-preserving. (The hypotheses record that the operands are honest
constructed `TrainingData` values, i.e. already sanitized, so the new
constructor's re-sanitization is the identity.) -/
theorem C5_merge_example_order (A : TrainingData) (others : List TrainingData)
    (hA : sanitize_examples A.training_examples = A.training_examples)
    (hO : ∀ o ∈ others,
      sanitize_examples o.training_examples = o.training_examples) :
    (A.merge others).training_examples =
      A.training_examples ++ (others.map (·.training_examples)).flatten := by
  simp only [TrainingData.merge, mergeStep_foldl_components, TrainingData.init]
  rw [foldl_append_eq_flatten, sanitize_examples_append, hA,
    sanitize_flatten_of_sanitized others hO]

/-- Witness for C5, at the spec's example: A holds `[e1]`, B holds `[e2]`;
the merged examples are `[e1, e2]` in that order. -/
theorem C5_merge_example_order_witness :
    (TrainingData.merge (TrainingData.init [⟨"e1", some "greet", []⟩] [] [] [])
        [TrainingData.init [⟨"e2", some "bye", []⟩] [] [] []]).training_examples =
      (TrainingData.init [⟨"e1", some "greet", []⟩] [] [] []).training_examples ++
        (([TrainingData.init [⟨"e2", some "bye", []⟩] [] [] []].map
          (·.training_examples)).flatten) :=
  C5_merge_example_order _ _ (by decide)
    (by intro o ho; fin_cases ho; decide)

/-! ## Lemmas: idempotence of stripping, and re-sorting -/

theorem dropWhile_idem {α : Type} (p : α → Bool) (l : List α) :
    List.dropWhile p (List.dropWhile p l) = List.dropWhile p l := by
  induction l with
  | nil => rfl
  | cons a t ih =>
    by_cases h : p a = true
    · simp [List.dropWhile_cons, h, ih]
    · simp [List.dropWhile_cons, h]

theorem dropWhile_suffix_self {α : Type} (p : α → Bool) (l : List α) :
    List.dropWhile p l <:+ l := by
  induction l with
  | nil => exact List.suffix_refl _
  | cons a t ih =>
    by_cases h : p a = true
    · rw [List.dropWhile_cons, if_pos h]
      exact ih.trans (List.suffix_cons a t)
    · rw [List.dropWhile_cons, if_neg h]

theorem trimRight_takes_front {α : Type} (p : α → Bool) (l : List α) :
    (l.reverse.dropWhile p).reverse <+: l := by
  obtain ⟨s, hs⟩ := dropWhile_suffix_self p l.reverse
  refine ⟨s.reverse, ?_⟩
  have h2 := congrArg List.reverse hs
  simpa [List.reverse_append] using h2

theorem dropWhile_eq_self_of_front {α : Type} (p : α → Bool) {l l' : List α}
    (h : List.dropWhile p l = l) (hp : l' <+: l) :
    List.dropWhile p l' = l' := by
  cases l' with
  | nil => rfl
  | cons a t' =>
    obtain ⟨r, hr⟩ := hp
    have ha : p a = false := by
      cases hx : p a
      · rfl
      · subst hr
        rw [List.cons_append, List.dropWhile_cons, if_pos hx] at h
        have hlen := congrArg List.length h
        have hle := (List.dropWhile_sublist (l := t' ++ r) p).length_le
        simp only [List.length_cons, List.length_append] at hlen hle
        omega
    rw [List.dropWhile_cons, if_neg (by rw [ha]; exact Bool.false_ne_true)]

theorem trimRight_idem {α : Type} (p : α → Bool) (x : List α) :
    ((((x.reverse.dropWhile p).reverse).reverse.dropWhile p)).reverse =
      (x.reverse.dropWhile p).reverse := by
  rw [List.reverse_reverse, dropWhile_idem]

theorem pyStrip_idem (s : String) : pyStrip (pyStrip s) = pyStrip s := by
  rw [pyStrip, pyStrip]
  have hA : List.dropWhile Char.isWhitespace
      (List.dropWhile Char.isWhitespace s.data) =
      List.dropWhile Char.isWhitespace s.data :=
    dropWhile_idem _ _
  have hB := trimRight_takes_front Char.isWhitespace
    (List.dropWhile Char.isWhitespace s.data)
  have hC := dropWhile_eq_self_of_front Char.isWhitespace hA hB
  rw [show (String.mk ((((s.data.dropWhile Char.isWhitespace).reverse.dropWhile
      Char.isWhitespace)).reverse)).data =
      (((s.data.dropWhile Char.isWhitespace).reverse.dropWhile
      Char.isWhitespace)).reverse from rfl]
  rw [hC, trimRight_idem]

theorem sanitizeMsg_idem (m : Message) :
    sanitizeMsg (sanitizeMsg m) = sanitizeMsg m := by
  obtain ⟨tx, it, en⟩ := m
  cases it with
  | none => rfl
  | some s =>
    by_cases hs : s = ""
    · subst hs
      rfl
    · have hts : Message.intentTruthy ⟨tx, some s, en⟩ = true := by
        simp [Message.intentTruthy, hs]
      have h1 : sanitizeMsg ⟨tx, some s, en⟩ = ⟨tx, some (pyStrip s), en⟩ := by
        simp [sanitizeMsg, hts, Option.map]
      rw [h1]
      by_cases hps : pyStrip s = ""
      · have ht2 : Message.intentTruthy ⟨tx, some (pyStrip s), en⟩ = false := by
          simp [Message.intentTruthy, hps]
        simp [sanitizeMsg, ht2]
      · have ht2 : Message.intentTruthy ⟨tx, some (pyStrip s), en⟩ = true := by
          simp [Message.intentTruthy, hps]
        simp [sanitizeMsg, ht2, Option.map, pyStrip_idem]

theorem sanitize_examples_idem (l : List Message) :
    sanitize_examples (sanitize_examples l) = sanitize_examples l := by
  induction l with
  | nil => rfl
  | cons m t ih =>
    simp only [sanitize_examples, List.map_cons] at ih ⊢
    rw [sanitizeMsg_idem, ih]

theorem sortByKey_sorted_append {α : Type} (key : α → String) (x y : List α) :
    sortByKey key (sortByKey key x ++ y) = sortByKey key (x ++ y) := by
  apply sorted_unique_of_filter key (sortByKey_sorted key _)
    (sortByKey_sorted key _)
  intro k
  rw [sortByKey_filter, sortByKey_filter, List.filter_append,
    List.filter_append, sortByKey_filter]

/-- C4: merging pairwise left-to-right gives the same resulting data (same
examples, synonym map, entity-phrase map, and sorted regex features) as one
direct merge of all operands. (It is not commutative for synonym conflicts
— the later operand still wins in both forms.) -/
theorem C4_merge_pairwise_assoc (A B C : TrainingData) :
    (A.merge [B]).merge [C] = A.merge [B, C] := by
  simp only [TrainingData.merge, List.foldl_cons, List.foldl_nil, mergeStep,
    TrainingData.init, sort_regex_features, TrainingData.mk.injEq]
  refine ⟨?_, trivial, ?_, trivial⟩
  · rw [sanitize_examples_append, sanitize_examples_idem,
      ← sanitize_examples_append]
  · exact sortByKey_sorted_append featKey _ _

/-! ## Lemmas: the object-identity model of `merge` (C1) -/

theorem mem_dictSet {V : Type} :
    ∀ (d : Dict V) (k : String) (v : V) (q : String × V),
      q ∈ dictSet d k v → q = (k, v) ∨ q ∈ d := by
  intro d
  induction d with
  | nil =>
    intro k v q h
    simp only [dictSet, List.mem_singleton] at h
    exact Or.inl h
  | cons p t ih =>
    intro k v q h
    obtain ⟨k', v'⟩ := p
    simp only [dictSet] at h
    split at h
    · rcases List.mem_cons.mp h with h | h
      · exact Or.inl h
      · exact Or.inr (List.mem_cons_of_mem _ h)
    · rcases List.mem_cons.mp h with h | h
      · exact Or.inr (h ▸ List.mem_cons_self _ _)
      · rcases ih k v q h with h | h
        · exact Or.inl h
        · exact Or.inr (List.mem_cons_of_mem _ h)

theorem deepcopyTagged_snd_ge {α : Type} :
    ∀ (l : List (Tagged α)) (n : Nat), n ≤ (deepcopyTagged l n).2 := by
  intro l
  induction l with
  | nil => intro n; exact Nat.le_refl n
  | cons t l ih =>
    intro n
    simp only [deepcopyTagged]
    exact Nat.le_trans (Nat.le_succ n) (ih (n + 1))

theorem deepcopyTagged_refs_ge {α : Type} :
    ∀ (l : List (Tagged α)) (n : Nat) (t : Tagged α),
      t ∈ (deepcopyTagged l n).1 → n ≤ t.ref := by
  intro l
  induction l with
  | nil => intro n t h; simp [deepcopyTagged] at h
  | cons x l ih =>
    intro n t h
    simp only [deepcopyTagged, List.mem_cons] at h
    rcases h with h | h
    · rw [h]
    · exact Nat.le_trans (Nat.le_succ n) (ih (n + 1) t h)

theorem deepcopyPhrasesTagged_snd_ge :
    ∀ (m : Dict (Tagged (Finset String))) (n : Nat),
      n ≤ (deepcopyPhrasesTagged m n).2 := by
  intro m
  induction m with
  | nil => intro n; exact Nat.le_refl n
  | cons p t ih =>
    intro n
    obtain ⟨k, s⟩ := p
    simp only [deepcopyPhrasesTagged]
    exact Nat.le_trans (Nat.le_succ n) (ih (n + 1))

theorem deepcopyPhrasesTagged_refs_ge :
    ∀ (m : Dict (Tagged (Finset String))) (n : Nat)
      (p : String × Tagged (Finset String)),
      p ∈ (deepcopyPhrasesTagged m n).1 → n ≤ p.2.ref := by
  intro m
  induction m with
  | nil => intro n p h; simp [deepcopyPhrasesTagged] at h
  | cons x t ih =>
    intro n p h
    obtain ⟨k, s⟩ := x
    simp only [deepcopyPhrasesTagged, List.mem_cons] at h
    rcases h with h | h
    · rw [h]
    · exact Nat.le_trans (Nat.le_succ n) (ih (n + 1) p h)

theorem merge_entity_phrases_tagged_snd_ge :
    ∀ (o acc : Dict (Tagged (Finset String))) (n : Nat),
      n ≤ (merge_entity_phrases_tagged acc o n).2 := by
  intro o
  induction o with
  | nil => intro acc n; exact Nat.le_refl n
  | cons e t ih =>
    intro acc n
    simp only [merge_entity_phrases_tagged, List.foldl_cons]
    cases hacc : dictGet? acc e.1 with
    | some s =>
      simp only []
      exact Nat.le_trans (Nat.le_succ n) (ih (dictSet acc e.1 ⟨n, s.val ∪ e.2.val⟩) (n + 1))
    | none =>
      simp only []
      exact ih (dictSet acc e.1 e.2) n

theorem merge_entity_phrases_tagged_mem :
    ∀ (o acc : Dict (Tagged (Finset String))) (n : Nat)
      (p : String × Tagged (Finset String)),
      p ∈ (merge_entity_phrases_tagged acc o n).1 →
      p ∈ acc ∨ n ≤ p.2.ref ∨ p ∈ o := by
  intro o
  induction o with
  | nil =>
    intro acc n p h
    exact Or.inl h
  | cons e t ih =>
    intro acc n p h
    simp only [merge_entity_phrases_tagged, List.foldl_cons] at h
    cases hacc : dictGet? acc e.1 with
    | some s =>
      rw [hacc] at h
      simp only [] at h
      rcases ih _ (n + 1) p h with h1 | h1 | h1
      · rcases mem_dictSet acc e.1 _ p h1 with h2 | h2
        · refine Or.inr (Or.inl ?_)
          rw [h2]
        · exact Or.inl h2
      · exact Or.inr (Or.inl (Nat.le_trans (Nat.le_succ n) h1))
      · exact Or.inr (Or.inr (List.mem_cons_of_mem _ h1))
    | none =>
      rw [hacc] at h
      simp only [] at h
      rcases ih _ n p h with h1 | h1 | h1
      · rcases mem_dictSet acc e.1 _ p h1 with h2 | h2
        · exact Or.inr (Or.inr (h2 ▸ List.mem_cons_self _ _))
        · exact Or.inl h2
      · exact Or.inr (Or.inl h1)
      · exact Or.inr (Or.inr (List.mem_cons_of_mem _ h1))

theorem mem_foldl_insertByKey {α : Type} (key : α → String) :
    ∀ (l acc : List α) (x : α),
      x ∈ l.foldl (fun acc a => insertByKey key a acc) acc ↔
        x ∈ acc ∨ x ∈ l := by
  intro l
  induction l with
  | nil => intro acc x; simp
  | cons a t ih =>
    intro acc x
    simp only [List.foldl_cons, ih (insertByKey key a acc) x,
      mem_insertByKey, List.mem_cons]
    tauto

theorem mem_sortByKey {α : Type} (key : α → String) (l : List α) (x : α) :
    x ∈ sortByKey key l ↔ x ∈ l := by
  rw [sortByKey, mem_foldl_insertByKey]
  simp

theorem mergeTaggedStep_foldl_inv :
    ∀ (os : List TrainingDataTagged) (acc : MergeAccTagged) (m : Nat)
      (Q : String × Tagged (Finset String) → Prop),
      m ≤ acc.nextRef →
      (∀ t ∈ acc.training_examples, m ≤ t.ref) →
      (∀ t ∈ acc.regex_features, m ≤ t.ref) →
      (∀ p ∈ acc.entity_phrases, m ≤ p.2.ref ∨ Q p) →
      m ≤ (os.foldl mergeTaggedStep acc).nextRef ∧
      (∀ t ∈ (os.foldl mergeTaggedStep acc).training_examples, m ≤ t.ref) ∧
      (∀ t ∈ (os.foldl mergeTaggedStep acc).regex_features, m ≤ t.ref) ∧
      (∀ p ∈ (os.foldl mergeTaggedStep acc).entity_phrases,
        m ≤ p.2.ref ∨ Q p ∨ ∃ o ∈ os, p ∈ o.entity_phrases) := by
  intro os
  induction os with
  | nil =>
    intro acc m Q h1 h2 h3 h4
    refine ⟨h1, h2, h3, fun p hp => ?_⟩
    rcases h4 p hp with h | h
    · exact Or.inl h
    · exact Or.inr (Or.inl h)
  | cons o t ih =>
    intro acc m Q h1 h2 h3 h4
    simp only [List.foldl_cons]
    have hte2 : m ≤ (deepcopyTagged o.training_examples acc.nextRef).2 :=
      Nat.le_trans h1 (deepcopyTagged_snd_ge _ _)
    have hrf2 : m ≤ (deepcopyTagged o.regex_features
        (deepcopyTagged o.training_examples acc.nextRef).2).2 :=
      Nat.le_trans hte2 (deepcopyTagged_snd_ge _ _)
    have h1' : m ≤ (mergeTaggedStep acc o).nextRef := by
      simp only [mergeTaggedStep]
      exact Nat.le_trans hrf2 (merge_entity_phrases_tagged_snd_ge _ _ _)
    have h2' : ∀ x ∈ (mergeTaggedStep acc o).training_examples, m ≤ x.ref := by
      intro x hx
      simp only [mergeTaggedStep, List.mem_append] at hx
      rcases hx with hx | hx
      · exact h2 x hx
      · exact Nat.le_trans h1 (deepcopyTagged_refs_ge _ _ x hx)
    have h3' : ∀ x ∈ (mergeTaggedStep acc o).regex_features, m ≤ x.ref := by
      intro x hx
      simp only [mergeTaggedStep, List.mem_append] at hx
      rcases hx with hx | hx
      · exact h3 x hx
      · exact Nat.le_trans hte2 (deepcopyTagged_refs_ge _ _ x hx)
    have h4' : ∀ p ∈ (mergeTaggedStep acc o).entity_phrases,
        m ≤ p.2.ref ∨ (Q p ∨ p ∈ o.entity_phrases) := by
      intro p hp
      simp only [mergeTaggedStep] at hp
      rcases merge_entity_phrases_tagged_mem _ _ _ p hp with h | h | h
      · rcases h4 p h with h' | h'
        · exact Or.inl h'
        · exact Or.inr (Or.inl h')
      · exact Or.inl (Nat.le_trans hrf2 h)
      · exact Or.inr (Or.inr h)
    obtain ⟨g1, g2, g3, g4⟩ := ih (mergeTaggedStep acc o) m
      (fun p => Q p ∨ p ∈ o.entity_phrases) h1' h2' h3' h4'
    refine ⟨g1, g2, g3, fun p hp => ?_⟩
    rcases g4 p hp with h | h | h
    · exact Or.inl h
    · rcases h with h | h
      · exact Or.inr (Or.inl h)
      · exact Or.inr (Or.inr ⟨o, List.mem_cons_self o t, h⟩)
    · obtain ⟨o', ho', hpo'⟩ := h
      exact Or.inr (Or.inr ⟨o', List.mem_cons_of_mem o ho', hpo'⟩)

/-- C1 (counterexample): merging an empty dataset with an operand holding the
phrase-set object tagged `7` (all fresh allocations drawn from `100`
onwards) yields a result whose phrase map holds that very object — tag `7`,
not a fresh one — so the result shares a mutable phrase set with the
operand, contradicting the claim that every merged container is deep-copied
and nothing is shared. -/
theorem C1_adopted_phrase_set_shared :
    (cxSelf.merge [cxOperand] 100).1.entity_phrases =
      [("city", ⟨7, {"Paris"}⟩)] ∧
    cxOperand.entity_phrases = [("city", ⟨7, {"Paris"}⟩)] := by
  constructor
  · decide
  · rfl

/-- C1 (amended): with every fresh tag drawn from the counter `n`, the merged
instance's example objects, synonym dict object and regex-feature objects
all carry tags `≥ n` — they are fresh allocations, shared with no
pre-existing object — and every entity-phrase set of the result is either a
fresh allocation (tag `≥ n`) or one of an operand's own phrase-set entries,
adopted wholesale (by reference) for a key that was absent from the
accumulator; in particular nothing is shared with `self`, whose containers
are all deep-copied. -/
theorem C1_merge_aliasing_amended (self : TrainingDataTagged)
    (others : List TrainingDataTagged) (n : Nat) :
    (∀ t ∈ (self.merge others n).1.training_examples, n ≤ t.ref) ∧
    n ≤ (self.merge others n).1.synonymsRef ∧
    (∀ t ∈ (self.merge others n).1.regex_features, n ≤ t.ref) ∧
    (∀ p ∈ (self.merge others n).1.entity_phrases,
      n ≤ p.2.ref ∨ ∃ o ∈ others, p ∈ o.entity_phrases) := by
  have hte2 : n ≤ (deepcopyTagged self.training_examples n).2 :=
    deepcopyTagged_snd_ge _ _
  have hrf2 : n ≤ (deepcopyTagged self.regex_features
      ((deepcopyTagged self.training_examples n).2 + 1)).2 :=
    Nat.le_trans (Nat.le_trans hte2 (Nat.le_succ _))
      (deepcopyTagged_snd_ge _ _)
  have hep2 : n ≤ (deepcopyPhrasesTagged self.entity_phrases
      ((deepcopyTagged self.regex_features
        ((deepcopyTagged self.training_examples n).2 + 1)).2)).2 :=
    Nat.le_trans hrf2 (deepcopyPhrasesTagged_snd_ge _ _)
  obtain ⟨g1, g2, g3, g4⟩ := mergeTaggedStep_foldl_inv others
    { training_examples := (deepcopyTagged self.training_examples n).1
      entity_synonyms := self.entity_synonyms
      regex_features := (deepcopyTagged self.regex_features
        ((deepcopyTagged self.training_examples n).2 + 1)).1
      entity_phrases := (deepcopyPhrasesTagged self.entity_phrases
        ((deepcopyTagged self.regex_features
          ((deepcopyTagged self.training_examples n).2 + 1)).2)).1
      nextRef := (deepcopyPhrasesTagged self.entity_phrases
        ((deepcopyTagged self.regex_features
          ((deepcopyTagged self.training_examples n).2 + 1)).2)).2 }
    n (fun _ => False) hep2
    (fun t ht => deepcopyTagged_refs_ge _ _ t ht)
    (fun t ht => Nat.le_trans (Nat.le_trans hte2 (Nat.le_succ _))
      (deepcopyTagged_refs_ge _ _ t ht))
    (fun p hp => Or.inl
      (Nat.le_trans hrf2 (deepcopyPhrasesTagged_refs_ge _ _ p hp)))
  refine ⟨?_, ?_, ?_, ?_⟩
  · intro t ht
    simp only [TrainingDataTagged.merge, sanitizeTagged, List.mem_map] at ht
    obtain ⟨t0, ht0, rfl⟩ := ht
    exact g2 t0 ht0
  · simp only [TrainingDataTagged.merge]
    exact hte2
  · intro t ht
    simp only [TrainingDataTagged.merge, mem_sortByKey] at ht
    exact g3 t ht
  · intro p hp
    simp only [TrainingDataTagged.merge] at hp
    rcases g4 p hp with h | h | h
    · exact Or.inl h
    · exact absurd h (fun hx => hx)
    · exact Or.inr h

end RasaNLU
